import Mathlib

/-!
Shallow embedding of the `simplesam` repository core (files `simplesam.py` and
`scripts/pileup.py`): the SAM record model (CIGAR decomposition, gapped
projection, MD-tag reference reconstruction, tag codec, serialization) and the
streaming pileup accumulator, together with theorems settling the claims about
them.  Python strings are embedded as `List Char` (or `String` where a whole
field is carried around), Python ints as `Nat`/`Int`, exceptions as
`Except String`.
-/

namespace SimpleSam

/-! ### Character-list utilities -/

/-- Lexicographic strict order on char lists: the order Python uses to compare
strings (by code point).  Executable so that concrete runs reduce in the
kernel. -/
def chLt : List Char → List Char → Bool
  | [], [] => false
  | [], _ :: _ => true
  | _ :: _, [] => false
  | a :: as, b :: bs => if a < b then true else if b < a then false else chLt as bs

/-- Lexicographic `≤` on char lists (total preorder used by Python `sorted`). -/
def chLe (a b : List Char) : Bool := !(chLt b a)

/-- Python `str.split(':')`: splits a char list on every colon. -/
def splitOnColon : List Char → List (List Char)
  | [] => [[]]
  | c :: rest =>
    if c = ':' then [] :: splitOnColon rest
    else
      match splitOnColon rest with
      | g :: gs => (c :: g) :: gs
      | [] => [[c]]

/-- Python `int` on a run of decimal digit characters (most significant first),
the accumulator form used when joining a `groupby` digit group. -/
def digitsToNat (ds : List Char) : Nat :=
  ds.foldl (fun a c => 10 * a + (c.toNat - 48)) 0

/-- Decimal digit character for a digit value below ten. -/
def digitCh (d : Nat) : Char := Char.ofNat (48 + d)

/-- Little-endian decimal digits of a natural number, by repeated division;
the fuel only bounds the recursion depth and any fuel of at least `n` reduces
every step (kernel-reducible stand-in for `Nat.digits 10`, see
`natDigits_eq`). -/
def natDigitsF : Nat → Nat → List Nat
  | 0, _ => []
  | _ + 1, 0 => []
  | fuel + 1, n + 1 => ((n + 1) % 10) :: natDigitsF fuel ((n + 1) / 10)

/-- Little-endian decimal digits of a natural number. -/
def natDigits (n : Nat) : List Nat := natDigitsF n n

theorem natDigitsF_eq (fuel : Nat) : ∀ n, n ≤ fuel → natDigitsF fuel n = Nat.digits 10 n := by
  induction fuel with
  | zero =>
    intro n hn
    have h0 : n = 0 := by omega
    subst h0
    rw [Nat.digits_zero]
    rfl
  | succ fuel ih =>
    intro n hn
    cases n with
    | zero => rw [Nat.digits_zero]; rfl
    | succ m =>
      show ((m + 1) % 10) :: natDigitsF fuel ((m + 1) / 10) = _
      have hdiv : (m + 1) / 10 < m + 1 := Nat.div_lt_self (by omega) (by norm_num)
      have hle : (m + 1) / 10 ≤ fuel := Nat.lt_succ_iff.mp (lt_of_lt_of_le hdiv hn)
      rw [ih ((m + 1) / 10) hle]
      conv_rhs => rw [@Nat.digits_def' 10 (by norm_num) (m + 1) (by omega)]

theorem natDigits_eq (n : Nat) : natDigits n = Nat.digits 10 n :=
  natDigitsF_eq n n (le_refl n)

/-- Python `str` of a natural number: big-endian decimal digits. -/
def natStr (n : Nat) : List Char :=
  if n = 0 then ['0'] else ((natDigits n).reverse).map digitCh

/-- Python `str` of an integer: optional minus sign followed by the decimal
digits. -/
def intStr (n : Int) : List Char :=
  if n < 0 then '-' :: natStr n.natAbs else natStr n.toNat

/-- Parse a nonempty all-digit char list to a natural number; any other input
is a Python `ValueError`. -/
def parseDigits (ds : List Char) : Except String Nat :=
  if ds ≠ [] ∧ ds.all Char.isDigit then .ok (digitsToNat ds) else .error "ValueError"

/-- Python `int()` applied to the textual forms produced by `str` on integers:
an optional sign followed by decimal digits. -/
def pyInt (l : List Char) : Except String Int :=
  if l.head? = some '-' then (parseDigits l.tail).map (fun n => -(Int.ofNat n))
  else if l.head? = some '+' then (parseDigits l.tail).map (fun n => Int.ofNat n)
  else (parseDigits l).map (fun n => Int.ofNat n)

/-- Characters Python `float()` accepts in a decimal floating-point literal. -/
def isFloatChar (c : Char) : Bool :=
  c.isDigit || c = '.' || c = 'e' || c = 'E' || c = '+' || c = '-'

/-- Recognizer for the decimal literals `repr`/`str` produces for Python
floats (the embedding carries a float by this literal, since `float(str(x))`
recovers `x` exactly for every Python float). -/
def isFloatLit (l : List Char) : Bool :=
  !l.isEmpty && l.all isFloatChar && l.any Char.isDigit

/-! ### TagCodec (`encode_tag` / `decode_tag` / `parse_sam_tags`) -/

/-- Python value carried by a SAM auxiliary tag: text, integer, or floating
point (the float is embedded by its decimal literal, see `isFloatLit`). -/
inductive TagValue where
  | Z (s : List Char)
  | I (n : Int)
  | F (r : List Char)
deriving DecidableEq, Repr

/-- Python `str(data)` on a tag value. -/
def TagValue.pyStr : TagValue → List Char
  | .Z s => s
  | .I n => intStr n
  | .F r => r

/-- Type code `encode_tag` infers from the Python object type. -/
def TagValue.typeChar : TagValue → Char
  | .Z _ => 'Z'
  | .I _ => 'i'
  | .F _ => 'f'

/-- `encode_tag` from `simplesam.py`: `':'.join((tag, data_type, str(data)))`. -/
def encode_tag (tag : List Char) (data : TagValue) : List Char :=
  tag ++ ':' :: data.typeChar :: ':' :: data.pyStr

/-- Typed dispatch on the type-code field of a decoded tag, mirroring the
`if data_type == ...` chain of `decode_tag`.  `H` and `B` raise
`NotImplementedError`; an unknown code raises as well. -/
def decodeTyped (tag dt dat : List Char) : Except String (List Char × List Char × TagValue) :=
  if dt = ['i'] then (pyInt dat).map (fun n => (tag, dt, .I n))
  else if dt = ['Z'] then .ok (tag, dt, .Z dat)
  else if dt = ['f'] then
    if isFloatLit dat then .ok (tag, dt, .F dat) else .error "ValueError"
  else if dt = ['A'] then .ok (tag, dt, .Z dat)
  else if dt = ['H'] then .error "NotImplementedError"
  else if dt = ['B'] then .error "NotImplementedError"
  else .error "NotImplementedError"

/-- Fallback of `decode_tag`: `re.match(r'([A-Z]{2}):([iZfHB]):(\S+)', ...)`;
two uppercase letters, a colon, one of the five type codes, a colon, then a
maximal nonempty run of non-whitespace characters.  A failed match is the
Python `AttributeError` on `match.group`. -/
def regexFallback (l : List Char) : Except String (List Char × List Char × List Char) :=
  match l with
  | c1 :: c2 :: ':' :: t :: ':' :: rest =>
    if c1.isUpper ∧ c2.isUpper ∧ t ∈ (['i', 'Z', 'f', 'H', 'B'] : List Char) then
      let dat := rest.takeWhile (fun c => !c.isWhitespace)
      if dat = [] then .error "AttributeError" else .ok ([c1, c2], [t], dat)
    else .error "AttributeError"
  | _ => .error "AttributeError"

/-- `decode_tag` from `simplesam.py`: split on `':'`; when the split does not
give exactly the three fields the destructuring assignment raises and the
regex fallback is used instead. -/
def decode_tag (l : List Char) : Except String (List Char × List Char × TagValue) :=
  match splitOnColon l with
  | [tag, dt, dat] => decodeTyped tag dt dat
  | _ => (regexFallback l).bind (fun p => decodeTyped p.1 p.2.1 p.2.2)

/-- Python dict insertion: replacing an existing key keeps its position,
a new key is appended. -/
def dictInsert (d : List (List Char × TagValue)) (k : List Char) (v : TagValue) :
    List (List Char × TagValue) :=
  if (d.find? (fun kv => kv.1 = k)).isSome then
    d.map (fun kv => if kv.1 = k then (k, v) else kv)
  else d ++ [(k, v)]

/-- Python dict lookup. -/
def dictGet (d : List (List Char × TagValue)) (k : List Char) : Option TagValue :=
  (d.find? (fun kv => kv.1 = k)).map (fun kv => kv.2)

/-- `parse_sam_tags` from `simplesam.py`: decode each textual tag field and
build the tag dictionary (later duplicates override earlier ones, as in the
Python dict comprehension). -/
def parse_sam_tags (tagfields : List String) : Except String (List (List Char × TagValue)) := do
  let decoded ← tagfields.mapM (fun s => (decode_tag s.toList).map (fun p => (p.1, p.2.2)))
  .ok (decoded.foldl (fun d kv => dictInsert d kv.1 kv.2) [])

/-! ### CIGAR (`Sam.cigar_split` and the operation classification) -/

/-- The valid CIGAR operation strings: `_valid_cigar = _cigar_ref | _cigar_query
| _cigar_no_align` in `simplesam.py` (the set literals also contain the
two-letter string `'EQ'`). -/
def validCigar : List String := ["M", "D", "N", "=", "X", "EQ", "I", "S", "H", "P"]

/-- Membership in `_cigar_ref` (operations that consume the reference); the
`None` sentinel of an unaligned record is in no set. -/
def isRefOp : Option String → Bool
  | some t => t ∈ (["M", "D", "N", "=", "X", "EQ"] : List String)
  | none => false

/-- Membership in `_cigar_query` (operations that consume the query). -/
def isQueryOp : Option String → Bool
  | some t => t ∈ (["M", "I", "S", "=", "X", "EQ"] : List String)
  | none => false

/-- Membership in `_cigar_align = _cigar_ref & _cigar_query`. -/
def isAlignOp : Option String → Bool
  | some t => t ∈ (["M", "=", "X", "EQ"] : List String)
  | none => false

/-- Membership in `_cigar_ref_only = _cigar_ref - _cigar_align`. -/
def isRefOnlyOp : Option String → Bool
  | some t => t ∈ (["D", "N"] : List String)
  | none => false

/-- Membership in `_cigar_query_only = _cigar_query - _cigar_align`. -/
def isQueryOnlyOp : Option String → Bool
  | some t => t ∈ (["I", "S"] : List String)
  | none => false

/-- One pass of the `groupby(cigar, isdigit)` loop in `Sam.cigar_split`: read a
maximal digit run and the following maximal letter run, validate the letter
group, and continue.  The fuel argument only bounds the recursion depth; any
fuel of at least the input length reduces every step (the `0` branch is
unreachable from `cigar_split`).  A letter run with no preceding digits is the
Python `ValueError` from `int`; a trailing digit run with no letters ends the
generator (the pre-PEP-479 `StopIteration` from `next(cig_iter)`). -/
def cigarGroupsF : Nat → List Char → Except String (List (Nat × Option String))
  | 0, _ => .error "out of fuel"
  | _ + 1, [] => .ok []
  | fuel + 1, c :: cs =>
    let l := c :: cs
    let ds := l.takeWhile Char.isDigit
    let rest := l.dropWhile Char.isDigit
    if ds = [] then .error "ValueError"
    else
      let ls := rest.takeWhile (fun ch => !ch.isDigit)
      let rest2 := rest.dropWhile (fun ch => !ch.isDigit)
      if ls = [] then .ok []
      else if String.mk ls ∈ validCigar then
        (cigarGroupsF fuel rest2).map (fun ops => (digitsToNat ds, some (String.mk ls)) :: ops)
      else .error "InvalidCigarOperation"

/-- `Sam.cigar_split` from `simplesam.py`: a cigar of exactly `*` yields the
single sentinel pair `(0, None)` (the generator yields it and then stops);
otherwise the string decomposes into `(length, operation)` pairs. -/
def cigar_split (cigar : String) : Except String (List (Nat × Option String)) :=
  if cigar = "*" then .ok [(0, none)]
  else cigarGroupsF (cigar.toList.length + 1) cigar.toList

/-- Sum of the lengths of reference-consuming operations:
`sum(c[0] for c in self.cigars if c[1] in self._cigar_ref)`. -/
def refSum : List (Nat × Option String) → Nat
  | [] => 0
  | (n, t) :: ops => (if isRefOp t then n else 0) + refSum ops

/-- Sum of the lengths of query-consuming operations (the amount of `seq` a
cigar consumes). -/
def querySum : List (Nat × Option String) → Nat
  | [] => 0
  | (n, t) :: ops => (if isQueryOp t then n else 0) + querySum ops

/-! ### AlignmentRecord (`Sam`) -/

/-- Object representation of a SAM entry (`class Sam` in `simplesam.py`).
`tags?` is the lazily-parsed tag dictionary: `none` embeds the Python state
`self.tags is None` (never accessed), `some d` the materialized dict. -/
structure Sam where
  qname : String := ""
  flag : Nat := 4
  rname : String := "*"
  pos : Nat := 0
  mapq : Nat := 255
  cigar : String := "*"
  rnext : String := "*"
  pnext : Nat := 0
  tlen : Int := 0
  seq : String := "*"
  qual : String := "*"
  rawTags : List String := []
  tags? : Option (List (List Char × TagValue)) := none
deriving DecidableEq, Repr

/-- `Sam.mapped`: `not (self.flag & 0x4)`. -/
def Sam.mapped (s : Sam) : Bool := s.flag &&& 0x4 = 0

/-- `Sam.secondary`: `bool(self.flag & 0x100)`. -/
def Sam.secondary (s : Sam) : Bool := s.flag &&& 0x100 ≠ 0

/-- `Sam.duplicate`: `bool(self.flag & 0x400)`. -/
def Sam.duplicate (s : Sam) : Bool := s.flag &&& 0x400 ≠ 0

/-- `Sam.index_of`: `pos - self.pos`, an `IndexError` when negative. -/
def Sam.index_of (s : Sam) (pos : Nat) : Except String Nat :=
  if s.pos ≤ pos then .ok (pos - s.pos) else .error "IndexError"

/-- Walk of the cached cigar ops in `Sam.gapped`, with the source cursor `i`:
alignment ops copy `ungapped[i:i+n]` and advance `i`; ref-only ops emit `n` gap
characters; query-only ops advance `i` silently; anything else (including the
`(0, None)` sentinel and no-align ops) emits nothing. -/
def gappedAux (gap : Char) : List (Nat × Option String) → List Char → Nat → List Char
  | [], _, _ => []
  | (n, t) :: ops, u, i =>
    if isAlignOp t then ((u.drop i).take n) ++ gappedAux gap ops u (i + n)
    else if isRefOnlyOp t then List.replicate n gap ++ gappedAux gap ops u i
    else if isQueryOnlyOp t then gappedAux gap ops u (i + n)
    else gappedAux gap ops u i

/-- `Sam.gapped` from `simplesam.py`, applied to the value of the requested
attribute: the length guard raises `ValueError` when the attribute is not as
long as `seq`, then the cigar walk projects the attribute into reference
coordinates. -/
def Sam.gapped (s : Sam) (ungapped : String) (gap : Char) : Except String String :=
  if ungapped.length ≠ s.seq.length then .error "ValueError: length mismatch"
  else (cigar_split s.cigar).map (fun ops => String.mk (gappedAux gap ops ungapped.toList 0))

/-- `Sam.__len__` (`aligned_length` of the spec): the summed length of
reference-consuming cigar operations. -/
def Sam.aligned_length (s : Sam) : Except String Nat :=
  (cigar_split s.cigar).map refSum

/-- Tag dictionary access (`Sam.__getitem__`): parse the raw textual tags on
first access, then look the name up; a missing name is the Python `KeyError`. -/
def Sam.getTag (s : Sam) (name : List Char) : Except String TagValue := do
  let d ← match s.tags? with
    | some d => Except.ok d
    | none => parse_sam_tags s.rawTags
  match dictGet d name with
  | some v => .ok v
  | none => .error "KeyError"

/-! ### ReferenceReconstructor (`Sam.parse_md`) -/

/-- Scan of `re.findall(r"([0-9]+)\^?([A-Z]+)?", md)`: each match is a digit
run, an optional consumed (and discarded) `'^'`, and an optional run of
uppercase letters; characters that cannot start a match are skipped.  Fuel
bounds the recursion depth only; fuel of at least the input length reduces
every step. -/
def mdUnitsF : Nat → List Char → List (Nat × List Char)
  | 0, _ => []
  | _ + 1, [] => []
  | fuel + 1, c :: rest =>
    if c.isDigit then
      let ds := rest.takeWhile Char.isDigit
      let r1 := rest.dropWhile Char.isDigit
      let r2 := match r1 with
        | '^' :: t => t
        | _ => r1
      let ls := r2.takeWhile Char.isUpper
      let r3 := r2.dropWhile Char.isUpper
      (digitsToNat (c :: ds), ls) :: mdUnitsF fuel r3
    else mdUnitsF fuel rest

/-- Decoded `(digits, letters)` units of an MD annotation. -/
def mdUnits (l : List Char) : List (Nat × List Char) := mdUnitsF (l.length + 1) l

/-- Inner loop of `Sam.parse_md`: write each mismatch letter at the cursor and
advance; an assignment at an index at or past the end of the list is the
re-raised `IndexError` (spec: `InconsistentAlignmentAnnotation`). -/
def writeLetters : List Char → Nat → List Char → Except String (List Char × Nat)
  | ref, j, [] => .ok (ref, j)
  | ref, j, c :: cs =>
    if j < ref.length then writeLetters (ref.set j c) (j + 1) cs
    else .error "IndexError"

/-- Outer loop of `Sam.parse_md` over the decoded units: advance the cursor by
the digit run (unchecked), then write the letters. -/
def applyMd : List Char → Nat → List (Nat × List Char) → Except String (List Char)
  | ref, _, [] => .ok ref
  | ref, j, (d, ls) :: rest =>
    match writeLetters ref (j + d) ls with
    | .error e => .error e
    | .ok (ref', j') => applyMd ref' j' rest

/-- Overwrite the positions `p, p+1, ...` of a char list with the given
letters (the successful effect of one MD unit's letter loop). -/
def overwriteAt : List Char → Nat → List Char → List Char
  | ref, _, [] => ref
  | ref, p, c :: cs => overwriteAt (ref.set p c) (p + 1) cs

/-- `Sam.parse_md` from `simplesam.py`: fetch the `MD` tag (a `KeyError` when
absent), start from `list(self.gapped('seq'))`, and fold the decoded MD units
over it. -/
def Sam.parse_md (s : Sam) : Except String (List Char) := do
  let v ← s.getTag "MD".toList
  let md ← match v with
    | .Z t => Except.ok t
    | _ => Except.error "TypeError"
  let g ← s.gapped s.seq '-'
  applyMd g.toList 0 (mdUnits md)

/-! ### Serialization (`Sam.__str__`) -/

/-- String form of one re-encoded tag field. -/
def encodeTagStr (k : List Char) (v : TagValue) : String := String.mk (encode_tag k v)

/-- The list of textual tag fields `Sam.__str__` appends after `qual`: when the
tag dict was materialized (and is nonempty — `if self.tags:`), each tag is
re-encoded with its key, iterating keys in sorted order; otherwise the raw
textual tags pass through unchanged in input order. -/
def Sam.tagFieldStrings (s : Sam) : List String :=
  match s.tags? with
  | some d =>
    if d.isEmpty then s.rawTags
    else
      (List.insertionSort (fun a b => chLe a b = true) (d.map (fun kv => kv.1))).map
        (fun k => encodeTagStr k ((dictGet d k).getD (.Z [])))
  | none => s.rawTags

/-- Join a list of fields with tab characters. -/
def tabJoin : List String → String
  | [] => ""
  | [f] => f
  | f :: rest => f ++ "\t" ++ tabJoin rest

/-- `Sam.__str__`: the eleven required fields in fixed order, then the tag
fields, tab-separated with a trailing newline. -/
def Sam.toSamLine (s : Sam) : String :=
  s.qname ++ "\t" ++ toString s.flag ++ "\t" ++ s.rname ++ "\t" ++ toString s.pos ++ "\t" ++
    toString s.mapq ++ "\t" ++ s.cigar ++ "\t" ++ s.rnext ++ "\t" ++ toString s.pnext ++ "\t" ++
    toString s.tlen ++ "\t" ++ s.seq ++ "\t" ++ s.qual ++ "\t" ++ tabJoin s.tagFieldStrings ++ "\n"

/-! ### PileupAccumulator (`Extractor` in `scripts/pileup.py`)

The `Extractor` is an `OrderedDict` mapping a genomic position to the value
`(self.sam, deque(), deque())` created on first touch; `self.sam` is always the
record currently being ingested (set at the top of `update`, and `__missing__`
only fires inside `update`), so the embedding passes that record explicitly and
drops the `self.sam` field. -/

/-- One pileup column: the record that first touched the position, and the two
observation deques (bases and quality symbols). -/
structure Column where
  sam : Sam
  cseq : List Char
  cqual : List Char
deriving DecidableEq, Repr

/-- The accumulator state: an insertion-ordered position-to-column map. -/
abbrev Extractor := List (Nat × Column)

/-- Dict lookup in the accumulator. -/
def getCol : Extractor → Nat → Option Column
  | [], _ => none
  | (k, c) :: rest, p => if k = p then some c else getCol rest p

/-- `OrderedDict.pop`: remove the entry with the given key. -/
def removeKey : Extractor → Nat → Extractor
  | [], _ => []
  | (k, c) :: rest, p => if k = p then rest else (k, c) :: removeKey rest p

/-- Append an observation to the column already present at a position. -/
def appendObs : Extractor → Nat → Char → Char → Extractor
  | [], _, _, _ => []
  | (k, c) :: rest, p, b, q =>
    if k = p then (k, ⟨c.sam, c.cseq ++ [b], c.cqual ++ [q]⟩) :: rest
    else (k, c) :: appendObs rest p b q

/-- Record one passing observation at a position: `self[g+i][1].append(seq)` and
`self[g+i][2].append(qual)`, with `__missing__` creating `(sam, deque(), deque())`
when the position is new (new keys are appended, preserving insertion order). -/
def pushObs (e : Extractor) (sam : Sam) (p : Nat) (b q : Char) : Extractor :=
  match getCol e p with
  | some _ => appendObs e p b q
  | none => e ++ [(p, ⟨sam, [b], [q]⟩)]

/-- Loop body of `Extractor.update` over `enumerate(zip(gapped seq, gapped
qual))` starting at genomic position `g`: an observation is recorded exactly
when its raw quality symbol strictly exceeds `min_qual`. -/
def ingestAux (sam : Sam) (minQual : Char) : Extractor → Nat → List (Char × Char) → Extractor
  | e, _, [] => e
  | e, g, (b, q) :: rest =>
    ingestAux sam minQual (if minQual < q then pushObs e sam g b q else e) (g + 1) rest

/-- `Extractor.update` from `scripts/pileup.py`: gap the sequence with `'-'`
and the qualities with `'~'`, then record the passing observations position by
position from `sam.pos`. -/
def Extractor.update (e : Extractor) (sam : Sam) (minQual : Char) : Except String Extractor := do
  let gs ← sam.gapped sam.seq '-'
  let gq ← sam.gapped sam.qual '~'
  .ok (ingestAux sam minQual e sam.pos (gs.toList.zip gq.toList))

/-- One emitted pileup column, the typed content of the tuple `clear` yields:
`(sam.rname, str(pos), ref, str(len(seq) - len(s)), str(len(s)), ''.join(s),
''.join(q))`. -/
structure Emission where
  ername : String
  epos : Nat
  eref : Char
  nMatch : Nat
  nMismatch : Nat
  mbases : List Char
  mquals : List Char
deriving DecidableEq, Repr

/-- Emission of one popped column: resolve the reference base from the column's
record (`sam.parse_md()[sam.index_of(pos)]`), split the observations into
matches and mismatches (the `except ValueError` arm makes the all-match case
yield empty mismatch lists), and report the counts. -/
def emitColumn (pos : Nat) (c : Column) : Except String Emission :=
  match c.sam.parse_md with
  | .error e => .error e
  | .ok refSeq =>
    match c.sam.index_of pos with
    | .error e => .error e
    | .ok i =>
      match refSeq.get? i with
      | none => .error "IndexError"
      | some ref =>
        let mism := (c.cseq.zip c.cqual).filter (fun sq => sq.1 ≠ ref)
        .ok ⟨c.sam.rname, pos, ref, c.cseq.length - mism.length, mism.length,
              mism.map (fun sq => sq.1), mism.map (fun sq => sq.2)⟩

/-- The pop-and-emit loop of `Extractor.clear` over an already sorted key
list. -/
def clearKeys : List Nat → Extractor → Except String (List Emission × Extractor)
  | [], e => .ok ([], e)
  | k :: ks, e =>
    match getCol e k with
    | none => .error "KeyError"
    | some c =>
      match emitColumn k c with
      | .error err => .error err
      | .ok em =>
        match clearKeys ks (removeKey e k) with
        | .error err => .error err
        | .ok (rest, ef) => .ok (em :: rest, ef)

/-- `Extractor.clear` from `scripts/pileup.py`:
`for pos in sorted(k for k in self.keys() if stop is not None and k < stop)`,
popping and emitting each selected column.  Note the guard: when `stop` is
`None` the filter keeps nothing. -/
def Extractor.clear (e : Extractor) (stop : Option Nat) :
    Except String (List Emission × Extractor) :=
  clearKeys
    (List.insertionSort (· ≤ ·)
      ((e.map (fun kv => kv.1)).filter
        (fun k => match stop with
          | none => false
          | some b => decide (k < b))))
    e

/-- One iteration of the driver loop in `pileup`: skip unmapped, duplicate and
secondary records; otherwise evict columns left of the record's position, then
ingest it with the literal minimum quality `'!'`. -/
def driverStep (e : Extractor) (r : Sam) : Except String (List Emission × Extractor) :=
  if !r.mapped || r.duplicate || r.secondary then .ok ([], e)
  else
    match e.clear (some r.pos) with
    | .error err => .error err
    | .ok (out, e1) =>
      match e1.update r '!' with
      | .error err => .error err
      | .ok e2 => .ok (out, e2)

/-- The driver loop of `pileup` over a record stream, keeping the emissions of
each iteration as one chunk. -/
def pileupChunks : Extractor → List Sam → Except String (List (List Emission) × Extractor)
  | e, [] => .ok ([], e)
  | e, r :: rs =>
    match driverStep e r with
    | .error err => .error err
    | .ok (c, e1) =>
      match pileupChunks e1 rs with
      | .error err => .error err
      | .ok (cs, ef) => .ok (c :: cs, ef)

/-- The whole `pileup` pass: the driver loop followed by the end-of-stream
`e.clear()` flush. -/
def pileupRun (rs : List Sam) : Except String (List Emission) :=
  match pileupChunks [] rs with
  | .error err => .error err
  | .ok (cs, e) =>
    match e.clear none with
    | .error err => .error err
    | .ok (fin, _) => .ok (cs.flatten ++ fin)

/-! ### Example records -/

/-- A mapped two-base record at position 5 with a fully matching MD tag. -/
def exSam1 : Sam :=
  { qname := "r1"
    flag := 0
    rname := "ref1"
    pos := 5
    cigar := "2M"
    seq := "AT"
    qual := "II"
    rawTags := ["MD:Z:2"] }

/-- A mapped two-base record at position 6 overlapping `exSam1`. -/
def exSam2 : Sam :=
  { qname := "r2"
    flag := 0
    rname := "ref1"
    pos := 6
    cigar := "2M"
    seq := "TG"
    qual := "II"
    rawTags := ["MD:Z:2"] }

/-- An accumulator holding one un-emitted column, at position 7. -/
def exC1 : Extractor := [(7, ⟨exSam1, ['A'], ['I']⟩)]

/-- The spec's MD scenario record: cigar `8M2D3M`, MD `5A2^AC3`. -/
def exC2 : Sam :=
  { qname := "r"
    flag := 0
    rname := "ref"
    pos := 1
    cigar := "8M2D3M"
    seq := "CCCCCCCCGGG"
    qual := "IIIIIIIIIII"
    rawTags := ["MD:Z:5A2^AC3"] }

/-- A record whose cigar claims more aligned bases than `seq` holds. -/
def exC4 : Sam :=
  { qname := "r"
    cigar := "5M"
    seq := "AB"
    qual := "AB" }

/-- A record whose MD digit run advances the cursor well past the end of the
two-base reconstructed reference. -/
def exC6 : Sam :=
  { qname := "r"
    flag := 0
    rname := "ref"
    pos := 1
    cigar := "2M"
    seq := "AT"
    qual := "II"
    rawTags := ["MD:Z:5"] }

/-- An unaligned record (all constructor defaults: cigar `*`, seq `*`). -/
def exC7 : Sam := { qname := "c7" }

/-! ### Helper lemmas -/

theorem clear_none (e : Extractor) : Extractor.clear e none = .ok ([], e) := by
  have h : ((e.map (fun kv => kv.1)).filter
      (fun k => match (none : Option Nat) with
        | none => false
        | some b => decide (k < b))) = [] :=
    List.filter_eq_nil_iff.mpr (fun a _ => by simp)
  unfold Extractor.clear
  rw [h]
  rfl

theorem writeLetters_ok (ls : List Char) : ∀ (ref : List Char) (j : Nat),
    j + ls.length ≤ ref.length →
    writeLetters ref j ls = .ok (overwriteAt ref j ls, j + ls.length) := by
  induction ls with
  | nil => intro ref j _; simp [writeLetters, overwriteAt]
  | cons c cs ih =>
    intro ref j h
    have hj : j < ref.length := by simp at h; omega
    have h2 : (j + 1) + cs.length ≤ (ref.set j c).length := by
      rw [List.length_set]; simp at h; omega
    simp only [writeLetters, if_pos hj, overwriteAt, ih (ref.set j c) (j + 1) h2]
    congr 2
    simp; omega

/-! ### Claim C1 -/

/-- C1 (code bug): the claim says `evict(before_position = None)` — the
end-of-stream `Extractor.clear()` — removes and emits every resident column.
The code's filter `stop is not None and k < stop` is false for every key when
`stop` is `None`, so the flush emits nothing and removes nothing: here on a
state with one resident column (and on every state).  The driver's final
`for line in e.clear():` loop in `pileup` is consequently dead code. -/
theorem claim_C1 :
    (∀ e : Extractor, Extractor.clear e none = .ok ([], e)) ∧
    Extractor.clear exC1 none = .ok ([], exC1) ∧ exC1 ≠ [] :=
  ⟨clear_none, clear_none exC1, by decide⟩

/-! ### Claim C4 -/

theorem align_ref {t : Option String} (h : isAlignOp t = true) :
    isRefOp t = true ∧ isQueryOp t = true := by
  cases t with
  | none => simp [isAlignOp] at h
  | some s =>
    simp [isAlignOp] at h
    rcases h with h | h | h | h <;> subst h <;> exact ⟨by decide, by decide⟩

theorem refOnly_class {t : Option String} (h : isRefOnlyOp t = true) :
    isRefOp t = true ∧ isQueryOp t = false := by
  cases t with
  | none => simp [isRefOnlyOp] at h
  | some s =>
    simp [isRefOnlyOp] at h
    rcases h with h | h <;> subst h <;> exact ⟨by decide, by decide⟩

theorem queryOnly_class {t : Option String} (h : isQueryOnlyOp t = true) :
    isQueryOp t = true ∧ isRefOp t = false := by
  cases t with
  | none => simp [isQueryOnlyOp] at h
  | some s =>
    simp [isQueryOnlyOp] at h
    rcases h with h | h <;> subst h <;> exact ⟨by decide, by decide⟩

theorem ref_cases {t : Option String} (h : isRefOp t = true) :
    isAlignOp t = true ∨ isRefOnlyOp t = true := by
  cases t with
  | none => simp [isRefOp] at h
  | some s =>
    simp [isRefOp] at h
    rcases h with h | h | h | h | h | h <;> subst h <;> decide

theorem query_cases {t : Option String} (h : isQueryOp t = true) :
    isAlignOp t = true ∨ isQueryOnlyOp t = true := by
  cases t with
  | none => simp [isQueryOp] at h
  | some s =>
    simp [isQueryOp] at h
    rcases h with h | h | h | h | h | h <;> subst h <;> decide

theorem other_class {t : Option String} (h1 : isAlignOp t = false)
    (h2 : isRefOnlyOp t = false) (h3 : isQueryOnlyOp t = false) :
    isRefOp t = false ∧ isQueryOp t = false := by
  constructor
  · cases hr : isRefOp t with
    | false => rfl
    | true =>
      rcases ref_cases hr with h | h
      · rw [h1] at h; exact Bool.noConfusion h
      · rw [h2] at h; exact Bool.noConfusion h
  · cases hq : isQueryOp t with
    | false => rfl
    | true =>
      rcases query_cases hq with h | h
      · rw [h1] at h; exact Bool.noConfusion h
      · rw [h3] at h; exact Bool.noConfusion h

theorem gappedAux_length (gap : Char) (ops : List (Nat × Option String)) :
    ∀ (u : List Char) (i : Nat), i + querySum ops ≤ u.length →
    (gappedAux gap ops u i).length = refSum ops := by
  induction ops with
  | nil => intro u i _; rfl
  | cons op ops ih =>
    intro u i h
    obtain ⟨n, t⟩ := op
    by_cases ha : isAlignOp t = true
    · obtain ⟨hr, hq⟩ := align_ref ha
      simp only [querySum, hq, if_true] at h
      simp only [gappedAux, ha, if_true, refSum, hr, List.length_append, List.length_take,
        List.length_drop]
      rw [ih u (i + n) (by omega)]
      omega
    · by_cases hro : isRefOnlyOp t = true
      · obtain ⟨hr, hq⟩ := refOnly_class hro
        simp only [querySum, hq, if_false, Bool.false_eq_true] at h
        simp only [gappedAux, ha, hro, if_true, if_false, Bool.false_eq_true, refSum, hr,
          List.length_append, List.length_replicate]
        rw [ih u i (by omega)]
      · by_cases hqo : isQueryOnlyOp t = true
        · obtain ⟨hq, hr⟩ := queryOnly_class hqo
          simp only [querySum, hq, if_true] at h
          simp only [gappedAux, ha, hro, hqo, if_true, if_false, Bool.false_eq_true, refSum, hr]
          rw [ih u (i + n) (by omega)]
          omega
        · obtain ⟨hr, hq⟩ := other_class (by simpa using ha) (by simpa using hro)
            (by simpa using hqo)
          simp only [querySum, hq, if_false, Bool.false_eq_true] at h
          simp only [gappedAux, ha, hro, hqo, if_false, Bool.false_eq_true, refSum, hr]
          rw [ih u i (by omega)]
          omega

/-- C4 (amended): for a record whose cigar parses, `len(gapped(seq)) ==
aligned_length()` holds under the SAM well-formedness condition that the
query-consuming cigar length does not exceed `len(seq)`; without that
condition the Python slice `ungapped[i:i+n]` silently truncates (see the
counterexample). -/
theorem claim_C4 (s : Sam) (ops : List (Nat × Option String))
    (hc : cigar_split s.cigar = .ok ops)
    (hq : querySum ops ≤ s.seq.length) :
    (s.gapped s.seq '-').map String.length = .ok (refSum ops) ∧
    s.aligned_length = .ok (refSum ops) := by
  constructor
  · unfold Sam.gapped
    rw [if_neg (by omega), hc]
    show Except.ok ((gappedAux '-' ops s.seq.toList 0).length) = Except.ok (refSum ops)
    rw [gappedAux_length '-' ops s.seq.toList 0 (by simpa using hq)]
  · unfold Sam.aligned_length
    rw [hc]
    rfl

/-- Witness for C4 at the record `exSam1` (cigar `2M`, seq `AT`). -/
theorem claim_C4_witness :
    (Sam.gapped exSam1 exSam1.seq '-').map String.length = .ok 2 ∧
    Sam.aligned_length exSam1 = .ok 2 :=
  claim_C4 exSam1 [(2, some "M")] rfl (by decide)

/-- Counterexample to C4 as stated: `exC4` has the valid cigar `5M` but
`seq = "AB"`, and `len(gapped(seq)) = 2 ≠ 5 = aligned_length()`. -/
theorem claim_C4_counterexample :
    (Sam.gapped exC4 exC4.seq '-').map String.length = .ok 2 ∧
    Sam.aligned_length exC4 = .ok 5 ∧ (2 : Nat) ≠ 5 :=
  ⟨rfl, rfl, by decide⟩

/-! ### Claim C7 -/

/-- C7 (amended): a cigar of exactly `*` parses to the single sentinel pair
`(0, None)` — not to an empty operation list — and such a record has aligned
length 0 and contributes no pileup columns (`update` returns the accumulator
unchanged). -/
theorem claim_C7 (s : Sam) (h : s.cigar = "*") (hq : s.qual.length = s.seq.length) :
    cigar_split s.cigar = .ok [(0, none)] ∧
    s.aligned_length = .ok 0 ∧
    ∀ (e : Extractor) (mq : Char), Extractor.update e s mq = .ok e := by
  refine ⟨by rw [h]; rfl, ?_, ?_⟩
  · unfold Sam.aligned_length
    rw [h]
    rfl
  · intro e mq
    have h1 : s.gapped s.seq '-' = .ok "" := by
      unfold Sam.gapped
      rw [if_neg (by omega), h]
      rfl
    have h2 : s.gapped s.qual '~' = .ok "" := by
      unfold Sam.gapped
      rw [if_neg (by omega), h]
      rfl
    unfold Extractor.update
    rw [h1, h2]
    rfl

/-- Witness for C7 at the default-constructed record (cigar `*`). -/
theorem claim_C7_witness :
    cigar_split (Sam.cigar exC7) = .ok [(0, none)] ∧
    Sam.aligned_length exC7 = .ok 0 ∧
    Extractor.update [] exC7 '!' = .ok [] :=
  ⟨(claim_C7 exC7 rfl rfl).1, (claim_C7 exC7 rfl rfl).2.1, (claim_C7 exC7 rfl rfl).2.2 [] '!'⟩

/-- Counterexample to C7's first conjunct as stated: `*` parses to the
one-element sentinel list `[(0, None)]`, not to an empty sequence. -/
theorem claim_C7_counterexample :
    cigar_split "*" = .ok [(0, none)] ∧
    ([(0, none)] : List (Nat × Option String)) ≠ [] :=
  ⟨rfl, by decide⟩

/-! ### Claim C2 -/

/-- C2 (amended): `parse_md` overwrites a reference position for every letter
captured in an MD unit, including the letters of a `^`-prefixed deletion group
(the regex consumes and discards the `^`, keeping its letters as ordinary
overwrite letters).  On the spec's scenario the deletion-covered positions 8
and 9 — gap characters in `gapped(seq)` — end up holding the deleted reference
bases `A` and `C`, and position 5 is overwritten by `A` as stated. -/
theorem claim_C2 :
    mdUnits ("5A2^AC3".toList) = [(5, ['A']), (2, ['A', 'C']), (3, [])] ∧
    (∀ (ref : List Char) (j d : Nat) (ls : List Char), j + d + ls.length ≤ ref.length →
      applyMd ref j [(d, ls)] = .ok (overwriteAt ref (j + d) ls)) ∧
    Sam.parse_md exC2 = .ok ("CCCCCACCACGGG".toList) ∧
    ("CCCCCACCACGGG".toList).get? 5 = some 'A' ∧
    ("CCCCCACCACGGG".toList).get? 8 = some 'A' ∧
    ("CCCCCACCACGGG".toList).get? 9 = some 'C' := by
  refine ⟨rfl, ?_, rfl, rfl, rfl, rfl⟩
  intro ref j d ls h
  show (match writeLetters ref (j + d) ls with
    | .error e => Except.error e
    | .ok (ref', j') => applyMd ref' j' []) = _
  rw [writeLetters_ok ls ref (j + d) h]
  rfl

/-- Witness for C2's overwrite lemma at a concrete two-character reference. -/
theorem claim_C2_witness :
    applyMd ("XY".toList) 0 [(1, ['A'])] = .ok (overwriteAt ("XY".toList) 1 ['A']) :=
  claim_C2.2.1 ("XY".toList) 0 1 ['A'] (by decide)

/-- Counterexample to C2 as stated: on the spec's own scenario the
deletion-covered position 8 is a gap in `gapped(seq)` but is overwritten with
`A` by `parse_md`, so deletion-covered positions do not remain gap
characters. -/
theorem claim_C2_counterexample :
    Sam.parse_md exC2 = .ok ("CCCCCACCACGGG".toList) ∧
    Sam.gapped exC2 exC2.seq '-' = .ok "CCCCCCCC--GGG" ∧
    ("CCCCCACCACGGG".toList).get? 8 = some 'A' ∧
    ("CCCCCCCC--GGG".toList).get? 8 = some '-' ∧
    ('A' : Char) ≠ '-' :=
  ⟨rfl, rfl, rfl, rfl, by decide⟩

/-! ### Claim C6 -/

/-- C6 (amended): the `IndexError` (the spec's
`InconsistentAlignmentAnnotation`) is raised exactly when a mismatch letter is
assigned at a cursor position at or past the end of the reconstructed
reference; a cursor advance produced by a digits run alone, with no mismatch
letter following it, is accepted silently however far past the end it runs. -/
theorem claim_C6 :
    (∀ (ref : List Char) (j d : Nat), applyMd ref j [(d, [])] = .ok ref) ∧
    (∀ (ref : List Char) (j d : Nat) (c : Char) (cs : List Char)
      (rest : List (Nat × List Char)), ref.length ≤ j + d →
      applyMd ref j ((d, c :: cs) :: rest) = .error "IndexError") := by
  constructor
  · intro ref j d; rfl
  · intro ref j d c cs rest h
    show (match writeLetters ref (j + d) (c :: cs) with
      | .error e => Except.error e
      | .ok (ref', j') => applyMd ref' j' rest) = _
    unfold writeLetters
    rw [if_neg (by omega)]

/-- Witness for C6 at a one-character reference and the unit `(5, "C")`. -/
theorem claim_C6_witness :
    applyMd ("A".toList) 0 [(5, ['C'])] = .error "IndexError" ∧
    applyMd ("A".toList) 0 [(5, [])] = .ok ("A".toList) :=
  ⟨claim_C6.2 ("A".toList) 0 5 'C' [] [] (by decide), claim_C6.1 ("A".toList) 0 5⟩

/-- Counterexample to C6 as stated: `exC6` has a two-base reconstructed
reference and MD `5`; the digits-only advance runs the cursor to 5 > 2 yet
`parse_md` succeeds instead of failing. -/
theorem claim_C6_counterexample :
    Sam.parse_md exC6 = .ok ("AT".toList) ∧
    mdUnits ("5".toList) = [(5, [])] ∧
    (Sam.gapped exC6 exC6.seq '-').map String.length = .ok 2 ∧
    (2 : Nat) < 5 :=
  ⟨rfl, rfl, rfl, by decide⟩

/-! ### Claim C5 -/

theorem digitCh_toNat : ∀ d, d < 10 → (digitCh d).toNat = 48 + d := by decide

theorem digitCh_isDigit : ∀ d, d < 10 → (digitCh d).isDigit = true := by decide

theorem foldl_digitCh (l : List Nat) (hl : ∀ d ∈ l, d < 10) : ∀ (a : Nat),
    List.foldl (fun acc c => 10 * acc + (c.toNat - 48)) a (l.map digitCh) =
      a * 10 ^ l.length + Nat.ofDigits 10 l.reverse := by
  induction l with
  | nil => intro a; simp [Nat.ofDigits_nil]
  | cons d t ih =>
    intro a
    have hd : d < 10 := hl d (List.mem_cons_self d t)
    have ht : ∀ x ∈ t, x < 10 := fun x hx => hl x (List.mem_cons_of_mem d hx)
    simp only [List.map_cons, List.foldl_cons, List.reverse_cons, List.length_cons]
    rw [digitCh_toNat d hd]
    have hstep : 10 * a + (48 + d - 48) = 10 * a + d := by omega
    rw [hstep, ih ht (10 * a + d), Nat.ofDigits_append, Nat.ofDigits_singleton,
      List.length_reverse]
    ring

theorem natStr_all_digits (n : Nat) : ∀ c ∈ natStr n, c.isDigit = true := by
  intro c hc
  unfold natStr at hc
  by_cases h : n = 0
  · rw [if_pos h] at hc
    simp at hc
    subst hc
    decide
  · rw [if_neg h, natDigits_eq] at hc
    obtain ⟨d, hd, hdc⟩ := List.mem_map.mp hc
    subst hdc
    exact digitCh_isDigit d (Nat.digits_lt_base (by norm_num) (List.mem_reverse.mp hd))

theorem natStr_ne_nil (n : Nat) : natStr n ≠ [] := by
  unfold natStr
  by_cases h : n = 0
  · rw [if_pos h]; decide
  · rw [if_neg h, natDigits_eq]
    simp only [ne_eq, List.map_eq_nil_iff, List.reverse_eq_nil_iff]
    exact Nat.digits_ne_nil_iff_ne_zero.mpr h

theorem parseDigits_natStr (n : Nat) : parseDigits (natStr n) = .ok n := by
  unfold parseDigits
  rw [if_pos ⟨natStr_ne_nil n, List.all_eq_true.mpr
    (fun c hc => natStr_all_digits n c hc)⟩]
  congr 1
  unfold digitsToNat natStr
  by_cases h : n = 0
  · rw [if_pos h, h]; decide
  · rw [if_neg h, natDigits_eq,
      foldl_digitCh ((Nat.digits 10 n).reverse)
        (fun d hd => Nat.digits_lt_base (by norm_num) (List.mem_reverse.mp hd)) 0,
      List.reverse_reverse, Nat.ofDigits_digits]
    omega

theorem natStr_head (n : Nat) : ∃ c t, natStr n = c :: t ∧ c.isDigit = true := by
  cases hns : natStr n with
  | nil => exact absurd hns (natStr_ne_nil n)
  | cons c t =>
    refine ⟨c, t, rfl, ?_⟩
    have := natStr_all_digits n c (by rw [hns]; exact List.mem_cons_self c t)
    exact this

theorem pyInt_natStr (n : Nat) : pyInt (natStr n) = .ok (n : Int) := by
  obtain ⟨c, t, hct, hd⟩ := natStr_head n
  have h1 : c ≠ '-' := by intro h; rw [h] at hd; exact Bool.noConfusion hd
  have h2 : c ≠ '+' := by intro h; rw [h] at hd; exact Bool.noConfusion hd
  unfold pyInt
  rw [hct]
  simp only [List.head?_cons]
  rw [if_neg (by simp [h1]), if_neg (by simp [h2]), ← hct, parseDigits_natStr n]
  rfl

theorem pyInt_intStr (n : Int) : pyInt (intStr n) = .ok n := by
  unfold intStr
  by_cases h : n < 0
  · rw [if_pos h]
    unfold pyInt
    simp only [List.head?_cons, List.tail_cons]
    rw [if_pos (by simp), parseDigits_natStr]
    show Except.ok (-(Int.ofNat n.natAbs)) = Except.ok n
    congr 1
    rw [show Int.ofNat n.natAbs = (n.natAbs : Int) from rfl]
    omega
  · rw [if_neg h, pyInt_natStr]
    congr 1
    omega

theorem intStr_chars (n : Int) : ∀ c ∈ intStr n, c = '-' ∨ c.isDigit = true := by
  intro c hc
  unfold intStr at hc
  by_cases h : n < 0
  · rw [if_pos h] at hc
    rcases List.mem_cons.mp hc with h1 | h1
    · exact Or.inl h1
    · exact Or.inr (natStr_all_digits _ c h1)
  · rw [if_neg h] at hc
    exact Or.inr (natStr_all_digits _ c hc)

theorem colon_not_mem_intStr (n : Int) : ':' ∉ intStr n := by
  intro h
  rcases intStr_chars n ':' h with h1 | h1
  · exact absurd h1 (by decide)
  · exact Bool.noConfusion h1

theorem splitOnColon_cons_colon (c : List Char) :
    splitOnColon (':' :: c) = [] :: splitOnColon c := by
  have h1 : splitOnColon (':' :: c) =
      if ':' = ':' then [] :: splitOnColon c
      else match splitOnColon c with
        | g :: gs => (':' :: g) :: gs
        | [] => [[':']] := rfl
  rw [h1, if_pos rfl]

theorem splitOnColon_cons_ne {b : Char} (hb : b ≠ ':') (c : List Char) :
    splitOnColon (b :: c) =
      match splitOnColon c with
      | g :: gs => (b :: g) :: gs
      | [] => [[b]] := by
  have h1 : splitOnColon (b :: c) =
      if b = ':' then [] :: splitOnColon c
      else match splitOnColon c with
        | g :: gs => (b :: g) :: gs
        | [] => [[b]] := rfl
  rw [h1, if_neg hb]

theorem splitOnColon_no_colon {l : List Char} (h : ':' ∉ l) : splitOnColon l = [l] := by
  induction l with
  | nil => rfl
  | cons c rest ih =>
    have hc : c ≠ ':' := fun hh => h (hh ▸ List.mem_cons_self c rest)
    have hr : ':' ∉ rest := fun hh => h (List.mem_cons_of_mem c hh)
    rw [splitOnColon_cons_ne hc, ih hr]

theorem splitOnColon_append {a : List Char} (rest : List Char) (h : ':' ∉ a) :
    splitOnColon (a ++ ':' :: rest) = a :: splitOnColon rest := by
  induction a with
  | nil =>
    show splitOnColon (':' :: rest) = [] :: splitOnColon rest
    exact splitOnColon_cons_colon rest
  | cons c t ih =>
    have hc : c ≠ ':' := fun hh => h (hh ▸ List.mem_cons_self c t)
    have ht : ':' ∉ t := fun hh => h (List.mem_cons_of_mem c hh)
    show splitOnColon (c :: (t ++ ':' :: rest)) = (c :: t) :: splitOnColon rest
    rw [splitOnColon_cons_ne hc, ih ht]

theorem splitOnColon_three {a c : List Char} {b : Char} (ha : ':' ∉ a) (hb : b ≠ ':')
    (hc : ':' ∉ c) : splitOnColon (a ++ ':' :: b :: ':' :: c) = [a, [b], c] := by
  rw [splitOnColon_append (b :: ':' :: c) ha, splitOnColon_cons_ne hb,
    splitOnColon_cons_colon, splitOnColon_no_colon hc]

/-- Well-formedness of a tag name and value under which the textual round trip
is exact: the name and a text value contain no colon (Python splits on every
colon), and a float is carried by a genuine decimal literal. -/
def TagWF (tag : List Char) (v : TagValue) : Prop :=
  ':' ∉ tag ∧ match v with
  | .Z s => ':' ∉ s
  | .I _ => True
  | .F r => isFloatLit r = true

/-- C5 (amended): encoding then decoding a tag returns the original name, the
inferred type code, and the original value, for every integer or float value
and for every text value whose textual form contains no colon (a text value
with a colon falls to the regex fallback, which truncates at whitespace — see
the counterexample). -/
theorem claim_C5 (tag : List Char) (v : TagValue) (h : TagWF tag v) :
    decode_tag (encode_tag tag v) = .ok (tag, [v.typeChar], v) := by
  obtain ⟨ht, hv⟩ := h
  have htc : v.typeChar ≠ ':' := by
    cases v with
    | Z s => exact fun hh => absurd (show ('Z' : Char) = ':' from hh) (by decide)
    | I n => exact fun hh => absurd (show ('i' : Char) = ':' from hh) (by decide)
    | F r => exact fun hh => absurd (show ('f' : Char) = ':' from hh) (by decide)
  have hdat : ':' ∉ v.pyStr := by
    cases v with
    | Z s => exact hv
    | I n => exact colon_not_mem_intStr n
    | F r =>
      intro hmem
      have hall := (List.all_eq_true.mp (by
        have : isFloatLit r = true := hv
        unfold isFloatLit at this
        exact (Bool.and_eq_true_iff.mp ((Bool.and_eq_true_iff.mp this).1)).2)) ':' hmem
      exact Bool.noConfusion hall
  unfold decode_tag encode_tag
  rw [splitOnColon_three ht htc hdat]
  cases v with
  | Z s =>
    show decodeTyped tag ['Z'] s = _
    unfold decodeTyped
    rw [if_neg (by decide), if_pos rfl]
    rfl
  | I n =>
    show decodeTyped tag ['i'] (intStr n) = _
    unfold decodeTyped
    rw [if_pos rfl, pyInt_intStr]
    rfl
  | F r =>
    show decodeTyped tag ['f'] r = _
    unfold decodeTyped
    rw [if_neg (by decide), if_neg (by decide), if_pos rfl, if_pos hv]
    rfl

/-- Witness for C5 on the integer tag `NM:i:5` and the float tag `XF:f:100.5`. -/
theorem claim_C5_witness :
    decode_tag (encode_tag ("NM".toList) (.I 5)) = .ok ("NM".toList, ['i'], .I 5) ∧
    decode_tag (encode_tag ("XF".toList) (.F ("100.5".toList))) =
      .ok ("XF".toList, ['f'], .F ("100.5".toList)) :=
  ⟨claim_C5 ("NM".toList) (.I 5) ⟨by decide, trivial⟩,
   claim_C5 ("XF".toList) (.F ("100.5".toList)) ⟨by decide, by decide⟩⟩

/-- Counterexample to C5 as stated: the text value `a:b c` (a supported kind)
round-trips to `a:b` — the colon forces the four-way split into the regex
fallback, whose `\S+` group stops at the space. -/
theorem claim_C5_counterexample :
    decode_tag (encode_tag ("ZZ".toList) (.Z ("a:b c".toList))) =
      .ok ("ZZ".toList, ['Z'], .Z ("a:b".toList)) ∧
    ("a:b".toList : List Char) ≠ ("a:b c".toList : List Char) :=
  ⟨rfl, by decide⟩

/-! ### Claim C9 -/

/-- An all-match column over `exSam1`: two observations, both equal to the
reference base `A`. -/
def exCol9 : Column := ⟨exSam1, ['A', 'A'], ['I', 'J']⟩

/-- C9: for every emitted column, `match_count + mismatch_count` equals the
total number of observations, and an all-match column is emitted with zero
mismatches and empty mismatch strings — the `except ValueError` arm of
`clear`, not an error. -/
theorem claim_C9 :
    (∀ (p : Nat) (c : Column) (em : Emission), emitColumn p c = .ok em →
      em.nMatch + em.nMismatch = c.cseq.length) ∧
    (∀ (p : Nat) (c : Column) (rl : List Char) (i : Nat) (r : Char),
      c.sam.parse_md = .ok rl → c.sam.index_of p = .ok i → rl.get? i = some r →
      (∀ b ∈ c.cseq, b = r) →
      emitColumn p c = .ok ⟨c.sam.rname, p, r, c.cseq.length, 0, [], []⟩) := by
  constructor
  · intro p c em hok
    unfold emitColumn at hok
    split at hok
    · exact Except.noConfusion hok
    · split at hok
      · exact Except.noConfusion hok
      · split at hok
        · exact Except.noConfusion hok
        · rename_i ref hg
          injection hok with h
          rw [← h]
          have hle : (((c.cseq.zip c.cqual).filter (fun sq => sq.1 ≠ ref)).length) ≤
              c.cseq.length := by
            calc ((c.cseq.zip c.cqual).filter (fun sq => sq.1 ≠ ref)).length
                ≤ (c.cseq.zip c.cqual).length := List.length_filter_le _ _
              _ ≤ c.cseq.length := by rw [List.length_zip]; exact min_le_left _ _
          show c.cseq.length - ((c.cseq.zip c.cqual).filter (fun sq => sq.1 ≠ ref)).length
              + ((c.cseq.zip c.cqual).filter (fun sq => sq.1 ≠ ref)).length = c.cseq.length
          omega
  · intro p c rl i r hmd hio hg hall
    have hfilter : (c.cseq.zip c.cqual).filter (fun sq => sq.1 ≠ r) = [] := by
      rw [List.filter_eq_nil_iff]
      intro sq hsq
      have h1 : sq.1 ∈ c.cseq := (List.of_mem_zip hsq).1
      simp [hall sq.1 h1]
    unfold emitColumn
    split
    · rename_i err heq
      rw [hmd] at heq
      exact Except.noConfusion heq
    · rename_i refSeq heq
      rw [hmd] at heq
      injection heq with h1
      subst h1
      split
      · rename_i err heq2
        rw [hio] at heq2
        exact Except.noConfusion heq2
      · rename_i idx heq2
        rw [hio] at heq2
        injection heq2 with h2
        subst h2
        split
        · rename_i heq3
          rw [hg] at heq3
          exact Option.noConfusion heq3
        · rename_i ref heq3
          rw [hg] at heq3
          injection heq3 with h3
          subst h3
          rw [hfilter]
          simp

/-- Witness for C9 at the all-match column `exCol9`. -/
theorem claim_C9_witness :
    emitColumn 5 exCol9 = .ok ⟨"ref1", 5, 'A', 2, 0, [], []⟩ ∧
    (Emission.mk "ref1" 5 'A' 2 0 [] []).nMatch
      + (Emission.mk "ref1" 5 'A' 2 0 [] []).nMismatch = exCol9.cseq.length := by
  have h2 := claim_C9.2 5 exCol9 ("AT".toList) 0 'A' rfl rfl rfl (by decide)
  exact ⟨h2, claim_C9.1 5 exCol9 _ h2⟩

/-! ### Claim C8 -/

/-- Observation deques of the column at a position (empty when the position has
no column yet). -/
def colObs (e : Extractor) (p : Nat) : List Char × List Char :=
  match getCol e p with
  | some c => (c.cseq, c.cqual)
  | none => ([], [])

theorem getCol_appendObs_ne (e : Extractor) (k p : Nat) (b q : Char) (h : p ≠ k) :
    getCol (appendObs e k b q) p = getCol e p := by
  induction e with
  | nil => rfl
  | cons kv rest ih =>
    obtain ⟨k0, c0⟩ := kv
    unfold appendObs
    by_cases hk : k0 = k
    · rw [if_pos hk]
      unfold getCol
      rw [if_neg (by omega), if_neg (by omega)]
    · rw [if_neg hk]
      unfold getCol
      by_cases hp : k0 = p
      · rw [if_pos hp, if_pos hp]
      · rw [if_neg hp, if_neg hp, ih]

theorem getCol_appendObs_eq (e : Extractor) (k : Nat) (b q : Char) (c : Column)
    (h : getCol e k = some c) :
    getCol (appendObs e k b q) k = some ⟨c.sam, c.cseq ++ [b], c.cqual ++ [q]⟩ := by
  induction e with
  | nil => exact Option.noConfusion h
  | cons kv rest ih =>
    obtain ⟨k0, c0⟩ := kv
    unfold getCol at h
    unfold appendObs
    by_cases hk : k0 = k
    · rw [if_pos hk] at h
      injection h with h1
      subst h1
      rw [if_pos hk]
      unfold getCol
      rw [if_pos hk]
    · rw [if_neg hk] at h
      rw [if_neg hk]
      unfold getCol
      rw [if_neg hk]
      exact ih h

theorem getCol_append_ne (e : Extractor) (k p : Nat) (c : Column) (h : p ≠ k) :
    getCol (e ++ [(k, c)]) p = getCol e p := by
  induction e with
  | nil => show getCol [(k, c)] p = none; unfold getCol; rw [if_neg (by omega)]; rfl
  | cons kv rest ih =>
    obtain ⟨k0, c0⟩ := kv
    show getCol ((k0, c0) :: (rest ++ [(k, c)])) p = _
    unfold getCol
    by_cases hp : k0 = p
    · rw [if_pos hp, if_pos hp]
    · rw [if_neg hp, if_neg hp, ih]

theorem getCol_append_eq (e : Extractor) (k : Nat) (c : Column) (h : getCol e k = none) :
    getCol (e ++ [(k, c)]) k = some c := by
  induction e with
  | nil => show getCol [(k, c)] k = some c; unfold getCol; rw [if_pos rfl]
  | cons kv rest ih =>
    obtain ⟨k0, c0⟩ := kv
    unfold getCol at h
    show getCol ((k0, c0) :: (rest ++ [(k, c)])) k = _
    unfold getCol
    by_cases hk : k0 = k
    · rw [if_pos hk] at h
      exact Option.noConfusion h
    · rw [if_neg hk] at h
      rw [if_neg hk]
      exact ih h

theorem colObs_pushObs_ne (e : Extractor) (sam : Sam) (k p : Nat) (b q : Char) (h : p ≠ k) :
    colObs (pushObs e sam k b q) p = colObs e p := by
  unfold pushObs
  cases hg : getCol e k with
  | some c => unfold colObs; rw [getCol_appendObs_ne e k p b q h]
  | none => unfold colObs; rw [getCol_append_ne e k p _ h]

theorem colObs_pushObs_eq (e : Extractor) (sam : Sam) (k : Nat) (b q : Char) :
    colObs (pushObs e sam k b q) k = ((colObs e k).1 ++ [b], (colObs e k).2 ++ [q]) := by
  unfold pushObs
  cases hg : getCol e k with
  | some c =>
    unfold colObs
    rw [getCol_appendObs_eq e k b q c hg, hg]
  | none =>
    unfold colObs
    rw [getCol_append_eq e k _ hg, hg]
    rfl

theorem ingestAux_lt (sam : Sam) (mq : Char) (l : List (Char × Char)) :
    ∀ (e : Extractor) (g p : Nat), p < g →
    colObs (ingestAux sam mq e g l) p = colObs e p := by
  induction l with
  | nil => intro e g p _; rfl
  | cons bq rest ih =>
    intro e g p hp
    obtain ⟨b, q⟩ := bq
    show colObs (ingestAux sam mq (if mq < q then pushObs e sam g b q else e) (g + 1) rest) p
      = colObs e p
    rw [ih _ (g + 1) p (by omega)]
    by_cases hc : mq < q
    · rw [if_pos hc, colObs_pushObs_ne e sam g p b q (by omega)]
    · rw [if_neg hc]

theorem ingestAux_get (sam : Sam) (mq : Char) (l : List (Char × Char)) :
    ∀ (e : Extractor) (g i : Nat) (b q : Char), l.get? i = some (b, q) →
    colObs (ingestAux sam mq e g l) (g + i) =
      if mq < q then ((colObs e (g + i)).1 ++ [b], (colObs e (g + i)).2 ++ [q])
      else colObs e (g + i) := by
  induction l with
  | nil => intro e g i b q h; exact Option.noConfusion h
  | cons bq rest ih =>
    intro e g i b q h
    obtain ⟨b0, q0⟩ := bq
    cases i with
    | zero =>
      have h0 : some (b0, q0) = some (b, q) := h
      injection h0 with h1
      injection h1 with hb hq
      rw [← hb, ← hq]
      show colObs (ingestAux sam mq (if mq < q0 then pushObs e sam g b0 q0 else e) (g + 1) rest)
        (g + 0) = _
      rw [ingestAux_lt sam mq rest _ (g + 1) (g + 0) (by omega)]
      by_cases hc : mq < q0
      · rw [if_pos hc, if_pos hc]
        have := colObs_pushObs_eq e sam g b0 q0
        rw [Nat.add_zero]
        exact this
      · rw [if_neg hc, if_neg hc]
    | succ i' =>
      have h' : rest.get? i' = some (b, q) := h
      show colObs (ingestAux sam mq (if mq < q0 then pushObs e sam g b0 q0 else e) (g + 1) rest)
        (g + (i' + 1)) = _
      have harith : g + (i' + 1) = (g + 1) + i' := by omega
      rw [harith, ih _ (g + 1) i' b q h']
      by_cases hc : mq < q0
      · rw [if_pos hc, colObs_pushObs_ne e sam g ((g + 1) + i') b0 q0 (by omega)]
      · rw [if_neg hc]

/-- C8: ingesting a record appends the observation `(gapped seq base, gapped
qual symbol)` at position `pos + i` exactly when the raw encoded quality symbol
strictly exceeds `min_quality` (character comparison, not a decoded score), for
every offset `i` of the gapped projections; under the well-formedness of C4 the
offsets run over `[0, aligned_length())`. -/
theorem claim_C8 (e : Extractor) (sam : Sam) (mq : Char) (gs gq : String)
    (h1 : sam.gapped sam.seq '-' = .ok gs)
    (h2 : sam.gapped sam.qual '~' = .ok gq) :
    Extractor.update e sam mq = .ok (ingestAux sam mq e sam.pos (gs.toList.zip gq.toList)) ∧
    (∀ (i : Nat) (b q : Char), (gs.toList.zip gq.toList).get? i = some (b, q) →
      colObs (ingestAux sam mq e sam.pos (gs.toList.zip gq.toList)) (sam.pos + i) =
        if mq < q then
          ((colObs e (sam.pos + i)).1 ++ [b], (colObs e (sam.pos + i)).2 ++ [q])
        else colObs e (sam.pos + i)) ∧
    (∀ ops, cigar_split sam.cigar = .ok ops → querySum ops ≤ sam.seq.length →
      gs.length = refSum ops) := by
  refine ⟨?_, ?_, ?_⟩
  · unfold Extractor.update
    rw [h1, h2]
    rfl
  · intro i b q h
    exact ingestAux_get sam mq (gs.toList.zip gq.toList) e sam.pos i b q h
  · intro ops hc hq
    unfold Sam.gapped at h1
    rw [if_neg (by omega), hc] at h1
    have h1' : Except.ok (String.mk (gappedAux '-' ops sam.seq.toList 0)) = Except.ok gs := h1
    injection h1' with h1''
    rw [← h1'']
    show (gappedAux '-' ops sam.seq.toList 0).length = refSum ops
    exact gappedAux_length '-' ops sam.seq.toList 0 (by simpa using hq)

/-- Witness for C8: ingesting `exSam1` into an empty accumulator records the
first observation `(A, I)` at position `pos + 0 = 5` (since `I > !`). -/
theorem claim_C8_witness :
    Extractor.update [] exSam1 '!' =
      .ok (ingestAux exSam1 '!' [] exSam1.pos (("AT".toList).zip ("II".toList))) ∧
    colObs (ingestAux exSam1 '!' [] exSam1.pos (("AT".toList).zip ("II".toList)))
      (exSam1.pos + 0) = (['A'], ['I']) := by
  have h := claim_C8 [] exSam1 '!' "AT" "II" rfl rfl
  refine ⟨h.1, ?_⟩
  rw [h.2.1 0 'A' 'I' rfl]
  rfl

/-! ### Claim C10 -/

theorem chLt_asymm : ∀ a b : List Char, chLt a b = true → chLt b a = false := by
  intro a
  induction a with
  | nil =>
    intro b h
    cases b with
    | nil => exact Bool.noConfusion h
    | cons y bs => rfl
  | cons x as ih =>
    intro b h
    cases b with
    | nil => exact Bool.noConfusion h
    | cons y bs =>
      simp only [chLt] at h ⊢
      by_cases h1 : x < y
      · rw [if_neg (lt_asymm h1), if_pos h1]
      · by_cases h2 : y < x
        · rw [if_neg h1, if_pos h2] at h
          exact Bool.noConfusion h
        · rw [if_neg h1, if_neg h2] at h
          rw [if_neg h2, if_neg h1]
          exact ih bs h

theorem chLt_trichot : ∀ a b : List Char, chLt a b = true ∨ chLt b a = true ∨ a = b := by
  intro a
  induction a with
  | nil =>
    intro b
    cases b with
    | nil => exact Or.inr (Or.inr rfl)
    | cons y bs => exact Or.inl rfl
  | cons x as ih =>
    intro b
    cases b with
    | nil => exact Or.inr (Or.inl rfl)
    | cons y bs =>
      rcases lt_trichotomy x y with h | h | h
      · left
        simp only [chLt]
        rw [if_pos h]
      · subst h
        rcases ih bs with h2 | h2 | h2
        · left
          simp only [chLt]
          rw [if_neg (lt_irrefl x), if_neg (lt_irrefl x)]
          exact h2
        · right; left
          simp only [chLt]
          rw [if_neg (lt_irrefl x), if_neg (lt_irrefl x)]
          exact h2
        · right; right
          rw [h2]
      · right; left
        simp only [chLt]
        rw [if_pos h]

theorem chLt_trans : ∀ a b c : List Char, chLt a b = true → chLt b c = true →
    chLt a c = true := by
  intro a
  induction a with
  | nil =>
    intro b c h1 h2
    cases c with
    | nil =>
      cases b with
      | nil => exact h2
      | cons y bs => exact Bool.noConfusion h2
    | cons z cs => rfl
  | cons x as ih =>
    intro b c h1 h2
    cases b with
    | nil => exact Bool.noConfusion h1
    | cons y bs =>
      cases c with
      | nil => exact Bool.noConfusion h2
      | cons z cs =>
        simp only [chLt] at h1 h2 ⊢
        by_cases hxy : x < y
        · by_cases hyz : y < z
          · rw [if_pos (lt_trans hxy hyz)]
          · by_cases hzy : z < y
            · rw [if_neg hyz, if_pos hzy] at h2
              exact Bool.noConfusion h2
            · have hyez : y = z := le_antisymm (le_of_not_lt hzy) (le_of_not_lt hyz)
              subst hyez
              rw [if_pos hxy]
        · by_cases hyx : y < x
          · rw [if_neg hxy, if_pos hyx] at h1
            exact Bool.noConfusion h1
          · have hxey : x = y := le_antisymm (le_of_not_lt hyx) (le_of_not_lt hxy)
            subst hxey
            rw [if_neg (lt_irrefl x), if_neg (lt_irrefl x)] at h1
            by_cases hxz : x < z
            · rw [if_pos hxz]
            · by_cases hzx : z < x
              · rw [if_neg hxz, if_pos hzx] at h2
                exact Bool.noConfusion h2
              · have hxez : x = z := le_antisymm (le_of_not_lt hzx) (le_of_not_lt hxz)
                subst hxez
                rw [if_neg (lt_irrefl x), if_neg (lt_irrefl x)] at h2
                rw [if_neg (lt_irrefl x), if_neg (lt_irrefl x)]
                exact ih bs cs h1 h2

theorem chLe_total_thm : ∀ a b : List Char, chLe a b = true ∨ chLe b a = true := by
  intro a b
  cases hb : chLt b a with
  | false =>
    left
    unfold chLe
    rw [hb]
    rfl
  | true =>
    right
    unfold chLe
    rw [chLt_asymm b a hb]
    rfl

theorem chLe_trans_thm : ∀ a b c : List Char, chLe a b = true → chLe b c = true →
    chLe a c = true := by
  intro a b c h1 h2
  unfold chLe at h1 h2 ⊢
  have h1' : chLt b a = false := by
    cases hb : chLt b a with
    | false => rfl
    | true => rw [hb] at h1; exact Bool.noConfusion h1
  have h2' : chLt c b = false := by
    cases hb : chLt c b with
    | false => rfl
    | true => rw [hb] at h2; exact Bool.noConfusion h2
  cases hc : chLt c a with
  | false => rfl
  | true =>
    exfalso
    rcases chLt_trichot a b with h3 | h3 | h3
    · have h4 := chLt_trans c a b hc h3
      rw [h2'] at h4
      exact Bool.noConfusion h4
    · rw [h1'] at h3
      exact Bool.noConfusion h3
    · rw [h3] at hc
      rw [h2'] at hc
      exact Bool.noConfusion hc

instance : IsTotal (List Char) (fun a b => chLe a b = true) := ⟨chLe_total_thm⟩

instance : IsTrans (List Char) (fun a b => chLe a b = true) := ⟨chLe_trans_thm⟩

/-- A record whose raw tags are out of name order and never parsed. -/
def exC10 : Sam := { qname := "q", rawTags := ["ZZ:Z:b", "AA:i:1"] }

/-- The same record with its tag dictionary materialized. -/
def exC10p : Sam :=
  { qname := "q"
    rawTags := ["ZZ:Z:b", "AA:i:1"]
    tags? := some [("ZZ".toList, .Z ("b".toList)), ("AA".toList, .I 1)] }

/-- C10 (amended): serialization always emits the twelve fields in the fixed
order; the trailing tag fields are re-encoded sorted by tag name only when the
tag dictionary has been materialized (parsed or modified) and is nonempty —
otherwise the raw textual tags pass through unchanged in input order (see the
counterexample). -/
theorem claim_C10 (s : Sam) :
    (s.toSamLine = s.qname ++ "\t" ++ toString s.flag ++ "\t" ++ s.rname ++ "\t"
      ++ toString s.pos ++ "\t" ++ toString s.mapq ++ "\t" ++ s.cigar ++ "\t" ++ s.rnext ++ "\t"
      ++ toString s.pnext ++ "\t" ++ toString s.tlen ++ "\t" ++ s.seq ++ "\t" ++ s.qual ++ "\t"
      ++ tabJoin s.tagFieldStrings ++ "\n") ∧
    (∀ d, s.tags? = some d → d ≠ [] →
      ∃ ks, List.Sorted (fun a b => chLe a b = true) ks ∧
        ks.Perm (d.map (fun kv => kv.1)) ∧
        s.tagFieldStrings = ks.map (fun k => encodeTagStr k ((dictGet d k).getD (.Z [])))) := by
  constructor
  · rfl
  · intro d hd hne
    refine ⟨List.insertionSort (fun a b => chLe a b = true) (d.map (fun kv => kv.1)),
      List.sorted_insertionSort _ _, List.perm_insertionSort _ _, ?_⟩
    unfold Sam.tagFieldStrings
    rw [hd]
    show (if d.isEmpty = true then s.rawTags
      else (List.insertionSort (fun a b => chLe a b = true) (d.map (fun kv => kv.1))).map
        (fun k => encodeTagStr k ((dictGet d k).getD (.Z [])))) = _
    rw [if_neg (by simp [List.isEmpty_iff, hne])]

/-- Witness for C10 at `exC10p` (dict materialized): tags come out re-encoded
and sorted by name, `AA:i:1` before `ZZ:Z:b`. -/
theorem claim_C10_witness :
    Sam.tagFieldStrings exC10p = ["AA:i:1", "ZZ:Z:b"] ∧
    (∃ ks, List.Sorted (fun a b => chLe a b = true) ks ∧
      ks.Perm ((([("ZZ".toList, TagValue.Z ("b".toList)), ("AA".toList, TagValue.I 1)])).map
        (fun kv => kv.1)) ∧
      Sam.tagFieldStrings exC10p = ks.map (fun k => encodeTagStr k
        ((dictGet [("ZZ".toList, TagValue.Z ("b".toList)), ("AA".toList, TagValue.I 1)] k).getD
          (.Z [])))) :=
  ⟨rfl, (claim_C10 exC10p).2 _ rfl (by decide)⟩

/-- Counterexample to C10 as stated: `exC10` has raw tags `ZZ:Z:b`, `AA:i:1`
and an unparsed tag dictionary; serialization emits them unchanged in input
order, not re-encoded sorted by tag name. -/
theorem claim_C10_counterexample :
    Sam.tagFieldStrings exC10 = ["ZZ:Z:b", "AA:i:1"] ∧
    Sam.tagFieldStrings exC10 ≠ ["AA:i:1", "ZZ:Z:b"] ∧
    chLe ("ZZ".toList) ("AA".toList) = false :=
  ⟨rfl, by decide, by decide⟩

/-! ### Claim C3 — key-set lemmas -/

/-- The key list (positions of resident columns) of the accumulator. -/
def keysOf (e : Extractor) : List Nat := e.map (fun kv => kv.1)

theorem keysOf_removeKey_sublist (e : Extractor) (k : Nat) :
    (keysOf (removeKey e k)).Sublist (keysOf e) := by
  induction e with
  | nil => exact List.Sublist.refl []
  | cons kv rest ih =>
    obtain ⟨k0, c0⟩ := kv
    unfold removeKey
    by_cases hk : k0 = k
    · rw [if_pos hk]
      exact List.sublist_cons_self k0 (keysOf rest)
    · rw [if_neg hk]
      exact List.Sublist.cons₂ k0 ih

theorem mem_keysOf_removeKey {e : Extractor} {k p : Nat}
    (h : p ∈ keysOf (removeKey e k)) : p ∈ keysOf e :=
  (keysOf_removeKey_sublist e k).subset h

theorem nodup_keysOf_removeKey {e : Extractor} (k : Nat) (h : (keysOf e).Nodup) :
    (keysOf (removeKey e k)).Nodup :=
  (keysOf_removeKey_sublist e k).nodup h

theorem not_mem_keysOf_removeKey {e : Extractor} {k : Nat} (h : (keysOf e).Nodup) :
    k ∉ keysOf (removeKey e k) := by
  induction e with
  | nil => exact List.not_mem_nil k
  | cons kv rest ih =>
    obtain ⟨k0, c0⟩ := kv
    have hn0 : k0 ∉ keysOf rest := (List.nodup_cons.mp h).1
    have hnr : (keysOf rest).Nodup := (List.nodup_cons.mp h).2
    unfold removeKey
    by_cases hk : k0 = k
    · rw [if_pos hk]
      rw [← hk]
      exact hn0
    · rw [if_neg hk]
      intro hmem
      rcases List.mem_cons.mp hmem with h1 | h1
      · exact hk h1.symm
      · exact ih hnr h1

theorem getCol_eq_none_iff (e : Extractor) (k : Nat) :
    getCol e k = none ↔ k ∉ keysOf e := by
  induction e with
  | nil => simp [getCol, keysOf]
  | cons kv rest ih =>
    obtain ⟨k0, c0⟩ := kv
    unfold getCol
    by_cases hk : k0 = k
    · rw [if_pos hk]
      simp [keysOf, hk]
    · rw [if_neg hk]
      rw [ih]
      constructor
      · intro h hmem
        rcases List.mem_cons.mp hmem with h1 | h1
        · exact hk h1.symm
        · exact h h1
      · intro h hmem
        exact h (List.mem_cons_of_mem _ hmem)

theorem keysOf_appendObs (e : Extractor) (k : Nat) (b q : Char) :
    keysOf (appendObs e k b q) = keysOf e := by
  induction e with
  | nil => rfl
  | cons kv rest ih =>
    obtain ⟨k0, c0⟩ := kv
    unfold appendObs
    by_cases hk : k0 = k
    · rw [if_pos hk]
      rfl
    · rw [if_neg hk]
      show k0 :: keysOf (appendObs rest k b q) = k0 :: keysOf rest
      rw [ih]

theorem keysOf_pushObs (e : Extractor) (sam : Sam) (k : Nat) (b q : Char) :
    keysOf (pushObs e sam k b q) = keysOf e ∨
    (keysOf (pushObs e sam k b q) = keysOf e ++ [k] ∧ k ∉ keysOf e) := by
  unfold pushObs
  cases hg : getCol e k with
  | some c => exact Or.inl (keysOf_appendObs e k b q)
  | none =>
    right
    constructor
    · show (e ++ [(k, (⟨sam, [b], [q]⟩ : Column))]).map (fun kv => kv.1) = keysOf e ++ [k]
      rw [List.map_append]
      rfl
    · exact (getCol_eq_none_iff e k).mp hg

theorem mem_keysOf_ingestAux (sam : Sam) (mq : Char) (l : List (Char × Char)) :
    ∀ (e : Extractor) (g p : Nat), p ∈ keysOf (ingestAux sam mq e g l) →
    p ∈ keysOf e ∨ g ≤ p := by
  induction l with
  | nil => intro e g p h; exact Or.inl h
  | cons bq rest ih =>
    intro e g p h
    obtain ⟨b, q⟩ := bq
    have h2 := ih (if mq < q then pushObs e sam g b q else e) (g + 1) p h
    rcases h2 with h3 | h3
    · by_cases hc : mq < q
      · rw [if_pos hc] at h3
        rcases keysOf_pushObs e sam g b q with h4 | h4
        · rw [h4] at h3
          exact Or.inl h3
        · rw [h4.1] at h3
          rcases List.mem_append.mp h3 with h5 | h5
          · exact Or.inl h5
          · right
            have : p = g := List.mem_singleton.mp h5
            omega
      · rw [if_neg hc] at h3
        exact Or.inl h3
    · right
      omega

theorem nodup_keysOf_ingestAux (sam : Sam) (mq : Char) (l : List (Char × Char)) :
    ∀ (e : Extractor) (g : Nat), (keysOf e).Nodup →
    (keysOf (ingestAux sam mq e g l)).Nodup := by
  induction l with
  | nil => intro e g h; exact h
  | cons bq rest ih =>
    intro e g h
    obtain ⟨b, q⟩ := bq
    apply ih
    by_cases hc : mq < q
    · rw [if_pos hc]
      rcases keysOf_pushObs e sam g b q with h4 | h4
      · rw [h4]; exact h
      · rw [h4.1]
        simp only [List.nodup_append, List.nodup_cons, List.not_mem_nil, not_false_iff,
          List.nodup_nil, and_true, true_and]
        constructor
        · exact h
        · intro a ha
          simp only [List.mem_singleton]
          intro hak
          rw [hak] at ha
          exact h4.2 ha
    · rw [if_neg hc]
      exact h

/-! ### Claim C3 — clear and update lemmas -/

theorem emitColumn_pos {p : Nat} {c : Column} {em : Emission}
    (h : emitColumn p c = .ok em) : em.epos = p := by
  unfold emitColumn at h
  split at h
  · exact Except.noConfusion h
  · split at h
    · exact Except.noConfusion h
    · split at h
      · exact Except.noConfusion h
      · injection h with h1
        rw [← h1]

theorem clearKeys_out : ∀ (ks : List Nat) (e : Extractor) (out : List Emission)
    (e' : Extractor), clearKeys ks e = .ok (out, e') →
    out.map (fun em => em.epos) = ks := by
  intro ks
  induction ks with
  | nil =>
    intro e out e' h
    have h' : (Except.ok (([] : List Emission), e) : Except String (List Emission × Extractor))
      = .ok (out, e') := h
    injection h' with h1
    injection h1 with ha hb
    rw [← ha]
    rfl
  | cons k ks ih =>
    intro e out e' h
    unfold clearKeys at h
    split at h
    · exact Except.noConfusion h
    · split at h
      · exact Except.noConfusion h
      · split at h
        · exact Except.noConfusion h
        · rename_i scr2 em hem scr3 rest ef hrest
          injection h with h1
          injection h1 with ha hb
          rw [← ha]
          show em.epos :: rest.map (fun em => em.epos) = k :: ks
          rw [emitColumn_pos hem, ih _ rest ef hrest]

theorem clearKeys_state : ∀ (ks : List Nat) (e : Extractor) (out : List Emission)
    (e' : Extractor), clearKeys ks e = .ok (out, e') →
    (∀ p, p ∈ keysOf e' → p ∈ keysOf e) ∧
    ((keysOf e).Nodup → (keysOf e').Nodup ∧ ∀ k ∈ ks, k ∉ keysOf e') := by
  intro ks
  induction ks with
  | nil =>
    intro e out e' h
    have h' : (Except.ok (([] : List Emission), e) : Except String (List Emission × Extractor))
      = .ok (out, e') := h
    injection h' with h1
    injection h1 with ha hb
    rw [← hb]
    exact ⟨fun p hp => hp, fun hn => ⟨hn, fun k hk => absurd hk (List.not_mem_nil k)⟩⟩
  | cons k ks ih =>
    intro e out e' h
    unfold clearKeys at h
    split at h
    · exact Except.noConfusion h
    · split at h
      · exact Except.noConfusion h
      · split at h
        · exact Except.noConfusion h
        · rename_i scr2 em hem scr3 rest ef hrest
          injection h with h1
          injection h1 with ha hef
          rw [← hef]
          obtain ⟨hsub, hrest2⟩ := ih (removeKey e k) rest ef hrest
          refine ⟨fun p hp => mem_keysOf_removeKey (hsub p hp), fun hn => ?_⟩
          have hnr : (keysOf (removeKey e k)).Nodup := nodup_keysOf_removeKey k hn
          obtain ⟨hnd, hks⟩ := hrest2 hnr
          refine ⟨hnd, fun k' hk' => ?_⟩
          rcases List.mem_cons.mp hk' with h2 | h2
          · rw [h2]
            intro hmem
            exact not_mem_keysOf_removeKey hn (hsub k hmem)
          · exact hks k' h2

theorem pairwise_lt_of_le_nodup {l : List Nat} (hs : l.Pairwise (· ≤ ·)) (hn : l.Nodup) :
    l.Pairwise (· < ·) := by
  induction l with
  | nil => exact List.Pairwise.nil
  | cons a t ih =>
    rw [List.pairwise_cons] at hs ⊢
    rw [List.nodup_cons] at hn
    refine ⟨fun b hb => lt_of_le_of_ne (hs.1 b hb) ?_, ih hs.2 hn.2⟩
    intro hab
    rw [hab] at hn
    exact hn.1 hb

/-- Facts about a successful `clear(stop = b)`: emissions are the sorted,
strictly increasing keys below `b` drawn from the resident columns, and the
surviving keys are exactly those at or beyond `b` (no column is retained after
eviction is requested past its position). -/
theorem clear_some (e : Extractor) (b : Nat) (out : List Emission) (e' : Extractor)
    (h : Extractor.clear e (some b) = .ok (out, e')) (hn : (keysOf e).Nodup) :
    (out.map (fun em => em.epos)).Pairwise (· < ·) ∧
    (∀ p ∈ out.map (fun em => em.epos), p ∈ keysOf e ∧ p < b) ∧
    (∀ k ∈ keysOf e', k ∈ keysOf e ∧ ¬ k < b) ∧
    (keysOf e').Nodup := by
  have hdef : Extractor.clear e (some b) =
      clearKeys (List.insertionSort (· ≤ ·) ((keysOf e).filter (fun k => decide (k < b)))) e :=
    rfl
  rw [hdef] at h
  have hout := clearKeys_out _ e out e' h
  have hstate := clearKeys_state _ e out e' h
  have hperm : (List.insertionSort (· ≤ ·) ((keysOf e).filter (fun k => decide (k < b)))).Perm
      ((keysOf e).filter (fun k => decide (k < b))) := List.perm_insertionSort _ _
  have hfn : ((keysOf e).filter (fun k => decide (k < b))).Nodup := hn.filter _
  have hsortnd : (List.insertionSort (· ≤ ·)
      ((keysOf e).filter (fun k => decide (k < b)))).Nodup := hperm.nodup_iff.mpr hfn
  refine ⟨?_, ?_, ?_, (hstate.2 hn).1⟩
  · rw [hout]
    exact pairwise_lt_of_le_nodup (List.sorted_insertionSort _ _) hsortnd
  · intro p hp
    rw [hout] at hp
    have hp2 : p ∈ (keysOf e).filter (fun k => decide (k < b)) := hperm.mem_iff.mp hp
    have := List.mem_filter.mp hp2
    exact ⟨this.1, by simpa using this.2⟩
  · intro k hk
    have hmem : k ∈ keysOf e := hstate.1 k hk
    refine ⟨hmem, fun hlt => ?_⟩
    have hks : k ∈ List.insertionSort (· ≤ ·) ((keysOf e).filter (fun k => decide (k < b))) :=
      hperm.mem_iff.mpr (List.mem_filter.mpr ⟨hmem, by simpa using hlt⟩)
    exact (hstate.2 hn).2 k hks hk

theorem update_keys (e : Extractor) (sam : Sam) (mq : Char) (e' : Extractor)
    (h : Extractor.update e sam mq = .ok e') :
    (∀ k ∈ keysOf e', k ∈ keysOf e ∨ sam.pos ≤ k) ∧
    ((keysOf e).Nodup → (keysOf e').Nodup) := by
  unfold Extractor.update at h
  cases h1 : sam.gapped sam.seq '-' with
  | error err => rw [h1] at h; exact Except.noConfusion h
  | ok gs =>
    rw [h1] at h
    cases h2 : sam.gapped sam.qual '~' with
    | error err => rw [h2] at h; exact Except.noConfusion h
    | ok gq =>
      rw [h2] at h
      have h' : (Except.ok (ingestAux sam mq e sam.pos (gs.toList.zip gq.toList))
          : Except String Extractor) = .ok e' := h
      injection h' with h3
      rw [← h3]
      exact ⟨fun k hk => mem_keysOf_ingestAux sam mq _ e sam.pos k hk,
        fun hn => nodup_keysOf_ingestAux sam mq _ e sam.pos hn⟩

/-! ### Claim C3 — main theorem -/

theorem pileupChunks_inv : ∀ (rs : List Sam) (e : Extractor) (B : Nat),
    rs.Pairwise (fun a b => a.pos ≤ b.pos) →
    (∀ r ∈ rs, B ≤ r.pos) →
    (∀ k ∈ keysOf e, B ≤ k) →
    (keysOf e).Nodup →
    ∀ (cs : List (List Emission)) (e' : Extractor),
    pileupChunks e rs = .ok (cs, e') →
    ((cs.flatten.map (fun em => em.epos)).Pairwise (· < ·) ∧
     (∀ p ∈ cs.flatten.map (fun em => em.epos), B ≤ p) ∧
     (∀ k ∈ keysOf e', B ≤ k) ∧ (keysOf e').Nodup ∧
     List.Forall₂ (fun r c => ∀ em ∈ c, em.epos < r.pos) rs cs) := by
  intro rs
  induction rs with
  | nil =>
    intro e B _ _ hkeys hn cs e' h
    have h' : (Except.ok (([] : List (List Emission)), e)
      : Except String (List (List Emission) × Extractor)) = .ok (cs, e') := h
    injection h' with h1
    injection h1 with hcs he
    rw [← hcs, ← he]
    exact ⟨List.Pairwise.nil, by simp, hkeys, hn, List.Forall₂.nil⟩
  | cons r rs' ih =>
    intro e B hsort hB hkeys hn cs e' h
    have hsort' : rs'.Pairwise (fun a b => a.pos ≤ b.pos) := (List.pairwise_cons.mp hsort).2
    have hhead : ∀ r' ∈ rs', r.pos ≤ r'.pos := (List.pairwise_cons.mp hsort).1
    unfold pileupChunks at h
    split at h
    · exact Except.noConfusion h
    · rename_i c0 e1 hds
      split at h
      · exact Except.noConfusion h
      · rename_i cs' ef hpc
        injection h with h1
        injection h1 with hcs hef
        rw [← hcs, ← hef]
        unfold driverStep at hds
        by_cases hskip : (!r.mapped || r.duplicate || r.secondary) = true
        · rw [if_pos hskip] at hds
          have hds' : (Except.ok (([] : List Emission), e)
            : Except String (List Emission × Extractor)) = .ok (c0, e1) := hds
          injection hds' with h2
          injection h2 with hc0 he1
          obtain ⟨p1, p2, p3, p4, p5⟩ := ih e1 B hsort' (fun r' hr' => hB r' (List.mem_cons_of_mem r hr'))
            (he1 ▸ hkeys) (he1 ▸ hn) cs' ef hpc
          rw [← hc0]
          refine ⟨by simpa using p1, by simpa using p2, p3, p4, ?_⟩
          exact List.Forall₂.cons (fun em hem => absurd hem (List.not_mem_nil em)) p5
        · rw [if_neg hskip] at hds
          split at hds
          · exact Except.noConfusion hds
          · rename_i out1 emid hcl
            split at hds
            · exact Except.noConfusion hds
            · rename_i e2 hup
              have hds' : (Except.ok (out1, e2) : Except String (List Emission × Extractor))
                = .ok (c0, e1) := hds
              injection hds' with h2
              injection h2 with hc0 he1
              obtain ⟨q1, q2, q3, q4⟩ := clear_some e r.pos out1 emid hcl hn
              obtain ⟨u1, u2⟩ := update_keys emid r '!' e2 hup
              have hBr : B ≤ r.pos := hB r (List.mem_cons_self r rs')
              have hkeys2 : ∀ k ∈ keysOf e2, r.pos ≤ k := by
                intro k hk
                rcases u1 k hk with h3 | h3
                · have := (q3 k h3).2
                  omega
                · exact h3
              obtain ⟨p1, p2, p3, p4, p5⟩ := ih e1 r.pos hsort' hhead (he1 ▸ hkeys2)
                (he1 ▸ u2 q4) cs' ef hpc
              rw [← hc0]
              have hflat : ((out1 :: cs').flatten).map (fun em => em.epos) =
                  out1.map (fun em => em.epos) ++ (cs'.flatten).map (fun em => em.epos) := by
                rw [List.flatten_cons, List.map_append]
              refine ⟨?_, ?_, fun k hk => le_trans hBr (p3 k hk), p4, ?_⟩
              · rw [hflat]
                rw [List.pairwise_append]
                refine ⟨q1, p1, fun a ha b hb => ?_⟩
                have ha2 : a < r.pos := (q2 a ha).2
                have hb2 : r.pos ≤ b := p2 b hb
                omega
              · rw [hflat]
                intro p hp
                rcases List.mem_append.mp hp with h3 | h3
                · have := hkeys _ (q2 p h3).1
                  exact this
                · exact le_trans hBr (p2 p h3)
              · refine List.Forall₂.cons (fun em hem => ?_) p5
                exact (q2 em.epos (List.mem_map_of_mem (fun em => em.epos) hem)).2

/-- C3: on a sorted record stream the driver protocol emits pileup columns in
strictly increasing position order across the whole pass; each chunk of
emissions produced on arrival of a record lies strictly left of that record's
position (so, with the stream sorted by position, no record yet to be ingested
can overlap an emitted column); and after `evict(before_position = b)` no
column with position `< b` remains resident. -/
theorem claim_C3 :
    (∀ (rs : List Sam) (cs : List (List Emission)) (e' : Extractor),
      rs.Pairwise (fun a b => a.pos ≤ b.pos) →
      pileupChunks [] rs = .ok (cs, e') →
      ((cs.flatten.map (fun em => em.epos)).Pairwise (· < ·) ∧
       List.Forall₂ (fun r c => ∀ em ∈ c, em.epos < r.pos) rs cs)) ∧
    (∀ (rs : List Sam) (out : List Emission),
      rs.Pairwise (fun a b => a.pos ≤ b.pos) →
      pileupRun rs = .ok out →
      (out.map (fun em => em.epos)).Pairwise (· < ·)) ∧
    (∀ (e : Extractor) (b : Nat) (out : List Emission) (e2 : Extractor),
      (keysOf e).Nodup → Extractor.clear e (some b) = .ok (out, e2) →
      ∀ k ∈ keysOf e2, ¬ k < b) := by
  refine ⟨?_, ?_, ?_⟩
  · intro rs cs e' hsort h
    obtain ⟨p1, _, _, _, p5⟩ := pileupChunks_inv rs [] 0 hsort (fun r _ => Nat.zero_le r.pos)
      (fun k hk => absurd hk (List.not_mem_nil k)) List.nodup_nil cs e' h
    exact ⟨p1, p5⟩
  · intro rs out hsort h
    unfold pileupRun at h
    split at h
    · exact Except.noConfusion h
    · rename_i cs e hpc
      rw [clear_none e] at h
      have h' : (Except.ok (cs.flatten ++ []) : Except String (List Emission)) = .ok out := h
      injection h' with h1
      rw [← h1, List.append_nil]
      obtain ⟨p1, _, _, _, _⟩ := pileupChunks_inv rs [] 0 hsort (fun r _ => Nat.zero_le r.pos)
        (fun k hk => absurd hk (List.not_mem_nil k)) List.nodup_nil cs e hpc
      exact p1
  · intro e b out e2 hn h k hk
    exact ((clear_some e b out e2 h hn).2.2.1 k hk).2

/-- The emission produced when `exSam2` arrives: the column at position 5. -/
def exEm3 : Emission := ⟨"ref1", 5, 'A', 1, 0, [], []⟩

/-- Emission chunks of the concrete two-record run. -/
def exChunks : List (List Emission) := [[], [exEm3]]

/-- Final accumulator state of the concrete two-record run. -/
def exFinal : Extractor :=
  [(6, ⟨exSam1, ['T', 'T'], ['I', 'I']⟩), (7, ⟨exSam2, ['G'], ['I']⟩)]

/-- Witness for C3 on the sorted stream `[exSam1, exSam2]`. -/
theorem claim_C3_witness :
    ((exChunks.flatten.map (fun em => em.epos)).Pairwise (· < ·) ∧
     List.Forall₂ (fun r c => ∀ em ∈ c, em.epos < r.pos) [exSam1, exSam2] exChunks) ∧
    (∀ k ∈ keysOf [(7, (⟨exSam1, ['A'], ['I']⟩ : Column))], ¬ k < 6) :=
  ⟨claim_C3.1 [exSam1, exSam2] exChunks exFinal (by decide) rfl,
   claim_C3.2.2 [(7, ⟨exSam1, ['A'], ['I']⟩)] 6 [] [(7, ⟨exSam1, ['A'], ['I']⟩)]
     (by decide) rfl⟩

end SimpleSam
